import Mathlib

/-!
# Verification of the PDF-audit-report extraction pipeline (`run.ts`)

This file gives a shallow embedding of the discovery-and-orchestration
pipeline implemented in `run.ts`:

* the path mapping `jsonPathForPdf` (built on Node's `path.posix`
  primitives `dirname`, `basename`, `join`, modelled here character by
  character after the Node.js implementation);
* the recursive discovery walk `findPdfPathsRecursive`;
* the idempotency gate `fileExists`, the job runner `runPolkaWithPath`
  and the top-level orchestration loop, modelled as pure state passing
  over an association-list filesystem, with the external process's
  behaviour supplied as an environment.

Theorems about the claims follow the definitions.
-/

/-! ## Path model: Node `path.posix` primitives on `List Char` -/

/-- The path segment `"."`. -/
def dotSeg : List Char := ['.']

/-- The path segment `".."`. -/
def ddSeg : List Char := ['.', '.']

/-- The characters of the fixed companion extension `".json"` appended by
`jsonPathForPdf`. -/
def extJson : List Char := ['.', 'j', 's', 'o', 'n']

/-- Split a character list on `'/'`; always returns at least one (possibly
empty) segment, exactly like splitting a string on a separator. -/
def splitSlash : List Char → List (List Char)
  | [] => [[]]
  | c :: rest =>
    match splitSlash rest with
    | [] => [[]]
    | s :: ss => if c = '/' then [] :: s :: ss else (c :: s) :: ss

/-- Join segments with `'/'` separators (inverse of `splitSlash` on
slash-free segments). -/
def joinSegs : List (List Char) → List Char
  | [] => []
  | [s] => s
  | s :: ss => s ++ '/' :: joinSegs ss

/-- One step of Node's `normalizeString`: process a single path segment
against the stack of already-normalized segments (stack is top-first).
Empty and `"."` segments are dropped; `".."` pops a normal segment, is
kept above another `".."`, and above the root is kept only when
`allowAboveRoot` is set (i.e. for relative paths). -/
def stepSeg (allowAboveRoot : Bool) (acc : List (List Char)) (s : List Char) :
    List (List Char) :=
  if s = [] ∨ s = dotSeg then acc
  else if s = ddSeg then
    match acc with
    | [] => if allowAboveRoot then [ddSeg] else []
    | t :: acc' => if t = ddSeg then s :: t :: acc' else acc'
  else s :: acc

/-- Fold `stepSeg` over a list of segments: the core of Node's
`normalizeString`. -/
def normStack (allowAboveRoot : Bool) (acc : List (List Char))
    (segs : List (List Char)) : List (List Char) :=
  segs.foldl (stepSeg allowAboveRoot) acc

/-- Whether a path starts with `'/'` (Node's `isAbsolute` check inside
`normalize` and `dirname`). -/
def isAbsL (cs : List Char) : Bool :=
  match cs with
  | c :: _ => c == '/'
  | [] => false

/-- Whether a path ends with `'/'` (Node's trailing-separator check inside
`normalize`). -/
def endsSlash : List Char → Bool
  | [] => false
  | [c] => c == '/'
  | _ :: rest => endsSlash rest

/-- Node `path.posix.normalize` on character lists: resolve `"."` and
`".."` segments, collapse repeated separators, keep a trailing separator,
and restore the leading `'/'` of an absolute path. -/
def normalizeL (cs : List Char) : List Char :=
  if cs = [] then dotSeg
  else
    let isAbs := isAbsL cs
    let trailing := endsSlash cs
    let core := joinSegs (normStack (!isAbs) [] (splitSlash cs)).reverse
    if core = [] then
      if isAbs then ['/'] else if trailing then ['.', '/'] else dotSeg
    else
      (if isAbs then ['/'] else []) ++ core ++ (if trailing then ['/'] else [])

/-- Node `path.posix.join` restricted to two arguments (the only form the
program uses): concatenate the nonempty arguments with `'/'` and
normalize; `"."` when both are empty. -/
def join2L (a b : List Char) : List Char :=
  if a = [] then (if b = [] then dotSeg else normalizeL b)
  else if b = [] then normalizeL a
  else normalizeL (a ++ '/' :: b)

/-- Drop a leading run of `'/'` characters (used on reversed paths to skip
trailing separators, as Node's `basename`/`dirname` loops do). -/
def dropSlashes : List Char → List Char
  | [] => []
  | c :: cs => if c = '/' then dropSlashes cs else c :: cs

/-- Take the leading run of non-`'/'` characters (one path segment of a
reversed path). -/
def takeSeg : List Char → List Char
  | [] => []
  | c :: cs => if c = '/' then [] else c :: takeSeg cs

/-- Drop the leading run of non-`'/'` characters, keeping the `'/'` that
terminates it (position of the separator before the last segment). -/
def dropSeg : List Char → List Char
  | [] => []
  | c :: cs => if c = '/' then c :: cs else dropSeg cs

/-- Node `path.posix.basename` on character lists: the last path segment,
ignoring trailing separators; empty for `""` or an all-separator path. -/
def basenameL (cs : List Char) : List Char :=
  (takeSeg (dropSlashes cs.reverse)).reverse

/-- Node `path.posix.dirname` on character lists: everything before the
separator that precedes the last segment; `"."` when there is no such
separator and the path is relative, `"/"` when it is absolute, with
Node's special case returning `"//"` for paths such as `"//a"`. -/
def dirnameL (cs : List Char) : List Char :=
  if cs = [] then dotSeg
  else
    match dropSeg (dropSlashes cs.reverse) with
    | [] => if isAbsL cs then ['/'] else dotSeg
    | _ :: rest =>
      if rest = [] then (if isAbsL cs then ['/'] else dotSeg)
      else if isAbsL cs ∧ rest.length = 1 then '/' :: rest
      else rest.reverse

/-- Take the leading run of non-`'.'` characters (used on a reversed base
name to locate the final extension). -/
def takeNonDot : List Char → List Char
  | [] => []
  | c :: cs => if c = '.' then [] else c :: takeNonDot cs

/-- The JavaScript `name.replace(/\.[^.]+$/i, "")` from `jsonPathForPdf`:
if the name has a `'.'` followed by at least one non-`'.'` character at
the end, remove from that last `'.'` to the end; otherwise the name is
unchanged. -/
def stripLastExtL (cs : List Char) : List Char :=
  let after := takeNonDot cs.reverse
  if after ≠ [] ∧ after.length < cs.length then
    cs.take (cs.length - after.length - 1)
  else cs

/-! ### String-level wrappers, mirroring the names imported from
`node:path` in `run.ts`. -/

/-- `dirname` from `node:path` (POSIX). -/
def dirname (p : String) : String := ⟨dirnameL p.data⟩

/-- `basename` from `node:path` (POSIX). -/
def basename (p : String) : String := ⟨basenameL p.data⟩

/-- The `.replace(/\.[^.]+$/i, "")` call applied to the base name in
`jsonPathForPdf`. -/
def stripExtension (s : String) : String := ⟨stripLastExtL s.data⟩

/-- `join` from `node:path` (POSIX), two-argument form. -/
def join (a b : String) : String := ⟨join2L a.data b.data⟩

/-- `jsonPathForPdf` from `run.ts`:
`join(dirname(p), basename(p).replace(/\.[^.]+$/i, "") + ".json")`. -/
def jsonPathForPdf (pdfPath : String) : String :=
  let dir := dirname pdfPath
  let base := stripExtension (basename pdfPath)
  join dir (base ++ ".json")

example : jsonPathForPdf "/a/b.pdf" = "/a/b.json" := by decide
example : jsonPathForPdf "/a/b.json" = "/a/b.json" := by decide
example : jsonPathForPdf "b.pdf" = "b.json" := by decide
example : jsonPathForPdf "/docs/README" = "/docs/README.json" := by decide
example : jsonPathForPdf "a//b.pdf" = "a/b.json" := by decide
example : jsonPathForPdf "a/../b.pdf" = "b.json" := by decide
example : jsonPathForPdf "../x.tar.gz" = "../x.tar.json" := by decide
example : jsonPathForPdf "" = ".json" := by decide
example : jsonPathForPdf "//a.pdf" = "/a.json" := by decide
example : dirname "//a" = "//" := by decide
example : dirname "/a" = "/" := by decide
example : dirname "a//b" = "a/" := by decide
example : basename "/" = "" := by decide
example : normalizeL ("./".data) = "./".data := by decide

/-! ## Lemmas about the path model -/

theorem splitSlash_ne_nil (cs : List Char) : splitSlash cs ≠ [] := by
  cases cs with
  | nil => simp [splitSlash]
  | cons c rest =>
    show (match splitSlash rest with
      | [] => [[]]
      | s :: ss => if c = '/' then [] :: s :: ss else (c :: s) :: ss) ≠ []
    cases splitSlash rest with
    | nil => simp
    | cons s ss =>
      by_cases hc : c = '/' <;> simp [hc]

theorem splitSlash_cons_slash (cs : List Char) :
    splitSlash ('/' :: cs) = [] :: splitSlash cs := by
  show (match splitSlash cs with
    | [] => [[]]
    | s :: ss => if '/' = '/' then [] :: s :: ss else ('/' :: s) :: ss) =
      [] :: splitSlash cs
  cases h : splitSlash cs with
  | nil => exact absurd h (splitSlash_ne_nil cs)
  | cons s ss => simp

theorem splitSlash_cons_ne (c : Char) (cs : List Char) (hc : c ≠ '/') :
    ∃ s ss, splitSlash cs = s :: ss ∧ splitSlash (c :: cs) = (c :: s) :: ss := by
  cases h : splitSlash cs with
  | nil => exact absurd h (splitSlash_ne_nil cs)
  | cons s ss =>
    refine ⟨s, ss, rfl, ?_⟩
    show (match splitSlash cs with
      | [] => [[]]
      | s :: ss => if c = '/' then [] :: s :: ss else (c :: s) :: ss) = _
    rw [h]
    simp [hc]

theorem splitSlash_append_slash (a b : List Char) :
    splitSlash (a ++ '/' :: b) = splitSlash a ++ splitSlash b := by
  induction a with
  | nil =>
    rw [List.nil_append, splitSlash_cons_slash]
    rfl
  | cons c a ih =>
    by_cases hc : c = '/'
    · subst hc
      rw [List.cons_append, splitSlash_cons_slash, splitSlash_cons_slash, ih,
        List.cons_append]
    · obtain ⟨s, ss, h1, h2⟩ := splitSlash_cons_ne c (a ++ '/' :: b) hc
      obtain ⟨s', ss', h1', h2'⟩ := splitSlash_cons_ne c a hc
      rw [List.cons_append, h2, h2', List.cons_append]
      rw [h1', List.cons_append] at ih
      rw [ih] at h1
      rw [List.cons.injEq] at h1
      rw [h1.1, h1.2]

theorem splitSlash_no_slash (cs : List Char) (h : '/' ∉ cs) :
    splitSlash cs = [cs] := by
  induction cs with
  | nil => rfl
  | cons c rest ih =>
    have hc : c ≠ '/' := fun hh => h (hh ▸ List.mem_cons_self c rest)
    obtain ⟨s, ss, h1, h2⟩ := splitSlash_cons_ne c rest hc
    rw [ih (fun hm => h (List.mem_cons_of_mem c hm))] at h1
    cases h1
    simpa using h2

theorem mem_splitSlash_no_slash (cs : List Char) :
    ∀ s ∈ splitSlash cs, '/' ∉ s := by
  induction cs with
  | nil =>
    intro s hs
    simp [splitSlash] at hs
    simp [hs]
  | cons c rest ih =>
    intro s hs
    by_cases hc : c = '/'
    · subst hc
      rw [splitSlash_cons_slash] at hs
      rcases List.mem_cons.mp hs with hs | hs
      · simp [hs]
      · exact ih s hs
    · obtain ⟨t, ss, h1, h2⟩ := splitSlash_cons_ne c rest hc
      rw [h2] at hs
      rcases List.mem_cons.mp hs with hs | hs
      · subst hs
        intro hm
        rcases List.mem_cons.mp hm with hm | hm
        · exact hc hm.symm
        · exact ih t (h1 ▸ List.mem_cons_self t ss) hm
      · exact ih s (h1 ▸ List.mem_cons_of_mem t hs)

theorem joinSegs_cons (s : List Char) (ss : List (List Char)) :
    joinSegs (s :: ss) = if ss = [] then s else s ++ '/' :: joinSegs ss := by
  cases ss <;> rfl

theorem joinSegs_append_singleton (L : List (List Char)) (x : List Char) :
    joinSegs (L ++ [x]) = if L = [] then x else joinSegs L ++ '/' :: x := by
  induction L with
  | nil => rfl
  | cons s L ih =>
    rw [List.cons_append, joinSegs_cons, ih, joinSegs_cons]
    cases L with
    | nil => simp
    | cons t L' => simp

theorem splitSlash_joinSegs (L : List (List Char)) (hne : L ≠ [])
    (h : ∀ s ∈ L, '/' ∉ s) : splitSlash (joinSegs L) = L := by
  induction L with
  | nil => exact absurd rfl hne
  | cons s L ih =>
    rw [joinSegs_cons]
    cases L with
    | nil => simpa using splitSlash_no_slash s (h s (List.mem_cons_self s []))
    | cons t L' =>
      simp only [ite_false, reduceCtorEq, if_neg (by simp : ¬(t :: L' = []))]
      rw [splitSlash_append_slash, splitSlash_no_slash s (h s (by simp)),
        ih (by simp) (fun u hu => h u (List.mem_cons_of_mem s hu))]
      rfl

theorem normStack_append (a : Bool) (acc : List (List Char))
    (l1 l2 : List (List Char)) :
    normStack a acc (l1 ++ l2) = normStack a (normStack a acc l1) l2 :=
  List.foldl_append _ _ _ _

theorem stepSeg_push (a : Bool) (acc : List (List Char)) (s : List Char)
    (h1 : s ≠ []) (h2 : s ≠ dotSeg) (h3 : s ≠ ddSeg) :
    stepSeg a acc s = s :: acc := by
  unfold stepSeg
  rw [if_neg (by simp [h1, h2]), if_neg h3]

theorem normStack_pushable (a : Bool) (l : List (List Char))
    (h : ∀ s ∈ l, s ≠ [] ∧ s ≠ dotSeg ∧ s ≠ ddSeg) :
    ∀ acc, normStack a acc l = l.reverse ++ acc := by
  induction l with
  | nil => intro acc; rfl
  | cons s l ih =>
    intro acc
    have hs := h s (List.mem_cons_self s l)
    show normStack a (stepSeg a acc s) l = _
    rw [stepSeg_push a acc s hs.1 hs.2.1 hs.2.2,
      ih (fun u hu => h u (List.mem_cons_of_mem s hu)) (s :: acc)]
    simp

theorem normStack_replicate (j k : Nat) :
    normStack true (List.replicate j ddSeg) (List.replicate k ddSeg) =
      List.replicate (k + j) ddSeg := by
  induction k generalizing j with
  | zero => simp [normStack]
  | succ k ih =>
    rw [List.replicate_succ]
    show normStack true (stepSeg true (List.replicate j ddSeg) ddSeg) _ = _
    have hstep : stepSeg true (List.replicate j ddSeg) ddSeg =
        List.replicate (j + 1) ddSeg := by
      unfold stepSeg
      rw [if_neg (by simp [ddSeg, dotSeg]), if_pos rfl]
      cases j with
      | zero => rfl
      | succ j' =>
        rw [List.replicate_succ]
        simp [List.replicate_succ]
    rw [hstep, ih (j + 1)]
    congr 1
    omega

/-- A well-formed normalized path segment: nonempty, slash-free, and not
`"."`. -/
def GoodSeg (s : List Char) : Prop := s ≠ [] ∧ '/' ∉ s ∧ s ≠ dotSeg

/-- Shape invariant of the stack produced by `normStack`: all segments are
well formed, and the `".."` segments form the bottom of the stack; for an
absolute path (`allowAboveRoot = false`) there are none. -/
def GoodStack (allow : Bool) (S : List (List Char)) : Prop :=
  (∀ s ∈ S, GoodSeg s) ∧
    ∃ N k, S = N ++ List.replicate k ddSeg ∧ ddSeg ∉ N ∧
      (allow = false → k = 0)

theorem goodStack_nil (allow : Bool) : GoodStack allow [] :=
  ⟨fun s hs => absurd hs (List.not_mem_nil s), [], 0, by simp, by simp, fun _ => rfl⟩

theorem goodSeg_ddSeg : GoodSeg ddSeg := by
  refine ⟨by simp [ddSeg], ?_, by simp [ddSeg, dotSeg]⟩
  intro h
  simp [ddSeg] at h

theorem stepSeg_good (allow : Bool) (acc : List (List Char)) (s : List Char)
    (hacc : GoodStack allow acc) (hs : '/' ∉ s) :
    GoodStack allow (stepSeg allow acc s) := by
  obtain ⟨hGood, N, k, hSplit, hNoDD, hAllow⟩ := hacc
  unfold stepSeg
  by_cases h1 : s = [] ∨ s = dotSeg
  · rw [if_pos h1]
    exact ⟨hGood, N, k, hSplit, hNoDD, hAllow⟩
  · rw [if_neg h1]
    by_cases h2 : s = ddSeg
    · rw [if_pos h2]
      cases hacceq : acc with
      | nil =>
        cases hal : allow with
        | false => simpa using goodStack_nil false
        | true =>
          simp only [if_pos rfl]
          refine ⟨fun u hu => ?_, [], 1, by simp, by simp, by simp⟩
          rcases List.mem_cons.mp hu with hu | hu
          · exact hu ▸ goodSeg_ddSeg
          · exact absurd hu (List.not_mem_nil u)
      | cons t acc' =>
        show GoodStack allow (if t = ddSeg then s :: t :: acc' else acc')
        by_cases h3 : t = ddSeg
        · rw [if_pos h3]
          have hN : N = [] := by
            cases hNcase : N with
            | nil => rfl
            | cons n N' =>
              exfalso
              rw [hNcase, hacceq] at hSplit
              have htn : t = n := by
                have hx := hSplit
                simp only [List.cons_append, List.cons.injEq] at hx
                exact hx.1
              have hnd : ddSeg ∈ N := by
                rw [hNcase, ← htn, ← h3]
                exact List.mem_cons_self t N'
              exact hNoDD hnd
          have hacc_rep : t :: acc' = List.replicate k ddSeg := by
            rw [← hacceq, hSplit, hN, List.nil_append]
          have hk : k ≠ 0 := by
            intro hk0
            rw [hk0] at hacc_rep
            simp at hacc_rep
          refine ⟨fun u hu => ?_, [], k + 1, ?_, by simp, ?_⟩
          · rcases List.mem_cons.mp hu with hu | hu
            · exact hu ▸ h2 ▸ goodSeg_ddSeg
            · exact hGood u (hacceq ▸ hu)
          · rw [List.nil_append, List.replicate_succ, ← hacc_rep, h2]
          · intro hf
            exact absurd (hAllow hf) hk
        · rw [if_neg h3]
          cases hNcase : N with
          | nil =>
            exfalso
            rw [hNcase, List.nil_append, hacceq] at hSplit
            cases hkcase : k with
            | zero => rw [hkcase] at hSplit; simp at hSplit
            | succ k' =>
              rw [hkcase, List.replicate_succ] at hSplit
              exact h3 (by
                have := hSplit
                rw [List.cons.injEq] at this
                exact this.1)
          | cons n N' =>
            rw [hNcase, hacceq, List.cons_append, List.cons.injEq] at hSplit
            refine ⟨fun u hu => hGood u (hacceq ▸ List.mem_cons_of_mem t (hSplit.2 ▸ hu)), N', k, hSplit.2, ?_, hAllow⟩
            exact fun hdd => hNoDD (hNcase ▸ List.mem_cons_of_mem n hdd)
    · rw [if_neg h2]
      have hsGood : GoodSeg s := by
        refine ⟨?_, hs, ?_⟩
        · intro hnil; exact h1 (Or.inl hnil)
        · intro hdot; exact h1 (Or.inr hdot)
      refine ⟨fun u hu => ?_, s :: N, k, ?_, ?_, hAllow⟩
      · rcases List.mem_cons.mp hu with hu | hu
        · exact hu ▸ hsGood
        · exact hGood u hu
      · rw [hSplit, List.cons_append]
      · intro hdd
        rcases List.mem_cons.mp hdd with hdd | hdd
        · exact h2 hdd.symm
        · exact hNoDD hdd

theorem normStack_good (allow : Bool) (segs : List (List Char))
    (hsegs : ∀ s ∈ segs, '/' ∉ s) :
    ∀ acc, GoodStack allow acc → GoodStack allow (normStack allow acc segs) := by
  induction segs with
  | nil => intro acc h; exact h
  | cons s rest ih =>
    intro acc h
    show GoodStack allow (normStack allow (stepSeg allow acc s) rest)
    exact ih (fun u hu => hsegs u (List.mem_cons_of_mem s hu)) _
      (stepSeg_good allow acc s h (hsegs s (List.mem_cons_self s rest)))

theorem normStack_refold (allow : Bool) (S : List (List Char))
    (h : GoodStack allow S) : normStack allow [] S.reverse = S := by
  obtain ⟨hGood, N, k, hSplit, hNoDD, hAllow⟩ := h
  rw [hSplit, List.reverse_append, List.reverse_replicate, normStack_append]
  have hrep : normStack allow [] (List.replicate k ddSeg) =
      List.replicate k ddSeg := by
    cases hal : allow with
    | true => simpa using normStack_replicate 0 k
    | false =>
      rw [hAllow hal]
      rfl
  rw [hrep]
  have hpush : normStack allow (List.replicate k ddSeg) N.reverse =
      N.reverse.reverse ++ List.replicate k ddSeg := by
    apply normStack_pushable
    intro s hsmem
    have hsN : s ∈ N := List.mem_reverse.mp hsmem
    have hsS : s ∈ S := hSplit ▸ List.mem_append_left _ hsN
    have hg := hGood s hsS
    exact ⟨hg.1, hg.2.2, fun hdd => hNoDD (hdd ▸ hsN)⟩
  rw [hpush, List.reverse_reverse, ← hSplit]

theorem takeSeg_all (l : List Char) (h : '/' ∉ l) : takeSeg l = l := by
  induction l with
  | nil => rfl
  | cons c cs ih =>
    have hc : c ≠ '/' := fun hh => h (hh ▸ List.mem_cons_self c cs)
    show (if c = '/' then [] else c :: takeSeg cs) = c :: cs
    rw [if_neg hc, ih (fun hm => h (List.mem_cons_of_mem c hm))]

theorem takeSeg_append (l r : List Char) (h : '/' ∉ l) :
    takeSeg (l ++ r) = l ++ takeSeg r := by
  induction l with
  | nil => rfl
  | cons c cs ih =>
    have hc : c ≠ '/' := fun hh => h (hh ▸ List.mem_cons_self c cs)
    show (if c = '/' then [] else c :: takeSeg (cs ++ r)) = c :: (cs ++ takeSeg r)
    rw [if_neg hc, ih (fun hm => h (List.mem_cons_of_mem c hm))]

theorem takeSeg_cons_slash (r : List Char) : takeSeg ('/' :: r) = [] := by
  show (if '/' = '/' then [] else _) = []
  rw [if_pos rfl]

theorem mem_takeSeg_ne_slash (l : List Char) : ∀ c ∈ takeSeg l, c ≠ '/' := by
  induction l with
  | nil => intro c hc; exact absurd hc (List.not_mem_nil c)
  | cons d cs ih =>
    intro c hc
    by_cases hd : d = '/'
    · rw [show takeSeg (d :: cs) = if d = '/' then [] else d :: takeSeg cs from rfl,
        if_pos hd] at hc
      exact absurd hc (List.not_mem_nil c)
    · rw [show takeSeg (d :: cs) = if d = '/' then [] else d :: takeSeg cs from rfl,
        if_neg hd] at hc
      rcases List.mem_cons.mp hc with hc | hc
      · exact hc ▸ hd
      · exact ih c hc

theorem dropSlashes_cons_ne (c : Char) (l : List Char) (hc : c ≠ '/') :
    dropSlashes (c :: l) = c :: l := by
  show (if c = '/' then dropSlashes l else c :: l) = c :: l
  rw [if_neg hc]

theorem dropSeg_append (l r : List Char) (h : '/' ∉ l) :
    dropSeg (l ++ r) = dropSeg r := by
  induction l with
  | nil => rfl
  | cons c cs ih =>
    have hc : c ≠ '/' := fun hh => h (hh ▸ List.mem_cons_self c cs)
    show (if c = '/' then c :: (cs ++ r) else dropSeg (cs ++ r)) = dropSeg r
    rw [if_neg hc, ih (fun hm => h (List.mem_cons_of_mem c hm))]

theorem dropSeg_cons_slash (r : List Char) : dropSeg ('/' :: r) = '/' :: r := by
  show (if '/' = '/' then '/' :: r else _) = '/' :: r
  rw [if_pos rfl]

theorem basenameL_no_slash (cs : List Char) : '/' ∉ basenameL cs := by
  intro h
  exact mem_takeSeg_ne_slash _ '/' (List.mem_reverse.mp h) rfl

theorem takeNonDot_all (l : List Char) (h : '.' ∉ l) : takeNonDot l = l := by
  induction l with
  | nil => rfl
  | cons c cs ih =>
    have hc : c ≠ '.' := fun hh => h (hh ▸ List.mem_cons_self c cs)
    show (if c = '.' then [] else c :: takeNonDot cs) = c :: cs
    rw [if_neg hc, ih (fun hm => h (List.mem_cons_of_mem c hm))]

theorem take_len_append (s t : List Char) : (s ++ t).take s.length = s := by
  induction s with
  | nil => rfl
  | cons c cs ih => simp [ih]

theorem stripLastExtL_append_ext (s : List Char) :
    stripLastExtL (s ++ extJson) = s := by
  have hrev : extJson.reverse = ['n', 'o', 's', 'j', '.'] := rfl
  have hafter : takeNonDot ((s ++ extJson).reverse) = ['n', 'o', 's', 'j'] := by
    rw [List.reverse_append, hrev]
    show takeNonDot ('n' :: 'o' :: 's' :: 'j' :: '.' :: s.reverse) = _
    simp [takeNonDot]
  have hlen : (s ++ extJson).length = s.length + 5 := by simp [extJson]
  have hlen4 : (['n', 'o', 's', 'j'] : List Char).length = 4 := rfl
  simp only [stripLastExtL, hafter, hlen, hlen4]
  rw [if_pos ⟨by simp, by omega⟩]
  have h54 : s.length + 5 - 4 - 1 = s.length := by omega
  rw [h54, take_len_append]

theorem stripLastExtL_no_dot (cs : List Char) (h : '.' ∉ cs) :
    stripLastExtL cs = cs := by
  have hafter : takeNonDot cs.reverse = cs.reverse :=
    takeNonDot_all _ (fun hm => h (List.mem_reverse.mp hm))
  simp only [stripLastExtL, hafter, List.length_reverse]
  rw [if_neg]
  intro hcon
  exact absurd hcon.2 (lt_irrefl _)

theorem stripLastExtL_subset (cs : List Char) :
    ∀ c ∈ stripLastExtL cs, c ∈ cs := by
  intro c hc
  unfold stripLastExtL at hc
  dsimp only at hc
  split at hc
  · exact List.take_subset _ _ hc
  · exact hc

theorem dirnameL_ne_nil (cs : List Char) : dirnameL cs ≠ [] := by
  unfold dirnameL
  split
  · simp [dotSeg]
  · split
    · split <;> simp [dotSeg]
    · split
      · split <;> simp [dotSeg]
      · split
        · simp
        · next hrest _ =>
          simp [hrest]

theorem isAbsL_append (a b : List Char) (h : a ≠ []) :
    isAbsL (a ++ b) = isAbsL a := by
  cases a with
  | nil => exact absurd rfl h
  | cons c t => rfl

theorem endsSlash_cons (c : Char) (l : List Char) :
    endsSlash (c :: l) = if l = [] then c == '/' else endsSlash l := by
  cases l <;> rfl

theorem endsSlash_append (a b : List Char) (h : b ≠ []) :
    endsSlash (a ++ b) = endsSlash b := by
  induction a with
  | nil => rfl
  | cons c t ih =>
    rw [List.cons_append, endsSlash_cons, if_neg, ih]
    intro hcon
    rcases List.append_eq_nil.mp hcon with ⟨_, hb⟩
    exact h hb

theorem endsSlash_no_slash (l : List Char) (h : '/' ∉ l) :
    endsSlash l = false := by
  induction l with
  | nil => rfl
  | cons c t ih =>
    rw [endsSlash_cons]
    split
    · simp only [beq_eq_false_iff_ne, ne_eq]
      exact fun hc => h (hc ▸ List.mem_cons_self c t)
    · exact ih (fun hm => h (List.mem_cons_of_mem c hm))

/-- A well-formed final path segment: nonempty, slash-free, and neither
`"."` nor `".."`. The segment appended by `jsonPathForPdf` always has
this shape. -/
def GoodName (n : List Char) : Prop :=
  n ≠ [] ∧ '/' ∉ n ∧ n ≠ dotSeg ∧ n ≠ ddSeg

/-- The leading `'/'` of an absolute path, nothing for a relative one. -/
def absPre (b : Bool) : List Char := if b then ['/'] else []

theorem normStack_singleton (a : Bool) (acc : List (List Char)) (s : List Char) :
    normStack a acc [s] = stepSeg a acc s := rfl

theorem stepSeg_empty (a : Bool) (acc : List (List Char)) :
    stepSeg a acc [] = acc := by
  unfold stepSeg
  rw [if_pos (Or.inl rfl)]

theorem joinSegs_ne_nil (L : List (List Char)) (hL : L ≠ [])
    (h : ∀ s ∈ L, s ≠ []) : joinSegs L ≠ [] := by
  cases L with
  | nil => exact absurd rfl hL
  | cons t T =>
    rw [joinSegs_cons]
    split
    · exact h t (List.mem_cons_self t T)
    · simp

theorem isAbsL_joinSegs_good (L : List (List Char)) (hL : L ≠ [])
    (h : ∀ s ∈ L, GoodSeg s) : isAbsL (joinSegs L) = false := by
  cases L with
  | nil => exact absurd rfl hL
  | cons t T =>
    have ht := h t (List.mem_cons_self t T)
    obtain ⟨c, t', hct⟩ : ∃ c t', t = c :: t' := by
      cases t with
      | nil => exact absurd rfl ht.1
      | cons c t' => exact ⟨c, t', rfl⟩
    have hc : c ≠ '/' := fun hh => ht.2.1 (hh ▸ (hct ▸ List.mem_cons_self c t'))
    rw [joinSegs_cons]
    split
    · rw [hct]
      show (c == '/') = false
      exact beq_eq_false_iff_ne.mpr hc
    · rw [hct, List.cons_append]
      show (c == '/') = false
      exact beq_eq_false_iff_ne.mpr hc

theorem join2L_form (dir n : List Char) (hd : dir ≠ []) (hn : GoodName n) :
    join2L dir n =
      absPre (isAbsL dir) ++
        joinSegs ((n :: normStack (!isAbsL dir) [] (splitSlash dir)).reverse) := by
  obtain ⟨hn1, hn2, hn3, hn4⟩ := hn
  unfold join2L
  rw [if_neg hd, if_neg hn1]
  have hcs : dir ++ '/' :: n ≠ [] := by simp
  simp only [normalizeL, if_neg hcs]
  rw [isAbsL_append dir ('/' :: n) hd]
  rw [endsSlash_append dir ('/' :: n) (by simp), endsSlash_cons, if_neg hn1,
    endsSlash_no_slash n hn2]
  rw [splitSlash_append_slash dir n, splitSlash_no_slash n hn2]
  rw [normStack_append, normStack_singleton,
    stepSeg_push _ _ n hn1 hn3 hn4]
  have hcore : joinSegs ((n :: normStack (!isAbsL dir) [] (splitSlash dir)).reverse) ≠ [] := by
    rw [List.reverse_cons, joinSegs_append_singleton]
    split
    · exact hn1
    · simp
  rw [if_neg hcore]
  simp [absPre]

theorem basenameL_append_name (Y n : List Char) (hn1 : n ≠ []) (hn2 : '/' ∉ n)
    (hY : takeSeg Y.reverse = []) :
    basenameL (Y ++ n) = n := by
  unfold basenameL
  rw [List.reverse_append]
  obtain ⟨c, t, hct⟩ : ∃ c t, n.reverse = c :: t := by
    cases hh : n.reverse with
    | nil => exact absurd (List.reverse_eq_nil_iff.mp hh) hn1
    | cons c t => exact ⟨c, t, rfl⟩
  have hcn : c ∈ n := List.mem_reverse.mp (hct ▸ List.mem_cons_self c t)
  have hc : c ≠ '/' := fun hh => hn2 (hh ▸ hcn)
  rw [hct, List.cons_append, dropSlashes_cons_ne c _ hc, ← List.cons_append, ← hct]
  rw [takeSeg_append _ _ (fun hm => hn2 (List.mem_reverse.mp hm)), hY]
  simp

theorem basenameL_form (a : Bool) (S : List (List Char)) (n : List Char)
    (hn : GoodName n) :
    basenameL (absPre a ++ joinSegs (S.reverse ++ [n])) = n := by
  obtain ⟨hn1, hn2, hn3, hn4⟩ := hn
  rw [joinSegs_append_singleton]
  split
  · -- S.reverse = [], path is absPre a ++ n
    apply basenameL_append_name _ _ hn1 hn2
    cases a with
    | false => rfl
    | true => exact takeSeg_cons_slash []
  · -- path is absPre a ++ (joinSegs S.reverse ++ '/' :: n)
    have hassoc : absPre a ++ (joinSegs S.reverse ++ '/' :: n) =
        (absPre a ++ joinSegs S.reverse ++ ['/']) ++ n := by
      simp
    rw [hassoc]
    apply basenameL_append_name _ _ hn1 hn2
    rw [List.reverse_append]
    exact takeSeg_cons_slash _

theorem dirnameL_concat (A n : List Char) (hA : A ≠ []) (hn1 : n ≠ [])
    (hn2 : '/' ∉ n) :
    dirnameL (A ++ '/' :: n) =
      if isAbsL (A ++ '/' :: n) ∧ A.reverse.length = 1 then '/' :: A.reverse
      else A := by
  have hq : A ++ '/' :: n ≠ [] := by simp
  obtain ⟨c, t, hct⟩ : ∃ c t, n.reverse = c :: t := by
    cases hh : n.reverse with
    | nil => exact absurd (List.reverse_eq_nil_iff.mp hh) hn1
    | cons c t => exact ⟨c, t, rfl⟩
  have hcn : c ∈ n := List.mem_reverse.mp (hct ▸ List.mem_cons_self c t)
  have hc : c ≠ '/' := fun hh => hn2 (hh ▸ hcn)
  have hrev : (A ++ '/' :: n).reverse = n.reverse ++ ('/' :: A.reverse) := by
    rw [List.reverse_append]
    simp
  have hscrut : dropSeg (dropSlashes (A ++ '/' :: n).reverse) = '/' :: A.reverse := by
    rw [hrev, hct, List.cons_append, dropSlashes_cons_ne c _ hc,
      ← List.cons_append, ← hct,
      dropSeg_append _ _ (fun hm => hn2 (List.mem_reverse.mp hm)),
      dropSeg_cons_slash]
  have hArev : A.reverse ≠ [] := by simpa using hA
  unfold dirnameL
  rw [if_neg hq, hscrut]
  show (if A.reverse = [] then (if isAbsL (A ++ '/' :: n) then ['/'] else dotSeg)
      else if isAbsL (A ++ '/' :: n) ∧ A.reverse.length = 1 then '/' :: A.reverse
      else A.reverse.reverse) = _
  rw [if_neg hArev, List.reverse_reverse]

theorem dirnameL_no_slash (n : List Char) (hn1 : n ≠ []) (hn2 : '/' ∉ n) :
    dirnameL n = dotSeg := by
  obtain ⟨c, t, hct⟩ : ∃ c t, n.reverse = c :: t := by
    cases hh : n.reverse with
    | nil => exact absurd (List.reverse_eq_nil_iff.mp hh) hn1
    | cons c t => exact ⟨c, t, rfl⟩
  have hcn : c ∈ n := List.mem_reverse.mp (hct ▸ List.mem_cons_self c t)
  have hc : c ≠ '/' := fun hh => hn2 (hh ▸ hcn)
  have hscrut : dropSeg (dropSlashes n.reverse) = [] := by
    rw [hct, dropSlashes_cons_ne c _ hc, ← hct, ← List.append_nil n.reverse,
      dropSeg_append _ _ (fun hm => hn2 (List.mem_reverse.mp hm))]
    rfl
  obtain ⟨d, m, hdm⟩ : ∃ d m, n = d :: m := by
    cases n with
    | nil => exact absurd rfl hn1
    | cons d m => exact ⟨d, m, rfl⟩
  have hd : d ≠ '/' := fun hh => hn2 (hh ▸ (hdm ▸ List.mem_cons_self d m))
  have habs : isAbsL n = false := by
    rw [hdm]
    show (d == '/') = false
    exact beq_eq_false_iff_ne.mpr hd
  unfold dirnameL
  rw [if_neg hn1, hscrut]
  show (if isAbsL n then ['/'] else dotSeg) = dotSeg
  rw [habs]
  rfl

theorem dirnameL_root_single (n : List Char) (hn1 : n ≠ []) (hn2 : '/' ∉ n) :
    dirnameL ('/' :: n) = ['/'] := by
  obtain ⟨c, t, hct⟩ : ∃ c t, n.reverse = c :: t := by
    cases hh : n.reverse with
    | nil => exact absurd (List.reverse_eq_nil_iff.mp hh) hn1
    | cons c t => exact ⟨c, t, rfl⟩
  have hcn : c ∈ n := List.mem_reverse.mp (hct ▸ List.mem_cons_self c t)
  have hc : c ≠ '/' := fun hh => hn2 (hh ▸ hcn)
  have hrev : ('/' :: n).reverse = n.reverse ++ ['/'] := by simp
  have hscrut : dropSeg (dropSlashes ('/' :: n).reverse) = ['/'] := by
    rw [hrev, hct, List.cons_append, dropSlashes_cons_ne c _ hc,
      ← List.cons_append, ← hct,
      dropSeg_append _ _ (fun hm => hn2 (List.mem_reverse.mp hm)),
      dropSeg_cons_slash]
  unfold dirnameL
  rw [if_neg (by simp : ¬('/' :: n = [])), hscrut]
  show (if ([] : List Char) = [] then (if isAbsL ('/' :: n) then ['/'] else dotSeg)
      else _) = ['/']
  rw [if_pos rfl, if_pos]
  show ('/' == '/') = true
  decide

theorem dirnameL_form (a : Bool) (S : List (List Char)) (n : List Char)
    (hn : GoodName n) (hS : ∀ s ∈ S, GoodSeg s) :
    dirnameL (absPre a ++ joinSegs (S.reverse ++ [n])) =
      if S = [] then (if a then ['/'] else dotSeg)
      else absPre a ++ joinSegs S.reverse := by
  obtain ⟨hn1, hn2, hn3, hn4⟩ := hn
  cases S with
  | nil =>
    rw [if_pos rfl]
    cases a with
    | true =>
      show dirnameL ('/' :: n) = ['/']
      exact dirnameL_root_single n hn1 hn2
    | false =>
      show dirnameL n = dotSeg
      exact dirnameL_no_slash n hn1 hn2
  | cons s0 S' =>
    have hrevne : (s0 :: S').reverse ≠ [] := by simp
    have hgoodrev : ∀ s ∈ (s0 :: S').reverse, GoodSeg s :=
      fun s hs => hS s (List.mem_reverse.mp hs)
    have hJne : joinSegs (s0 :: S').reverse ≠ [] :=
      joinSegs_ne_nil _ hrevne (fun s hs => (hgoodrev s hs).1)
    have hAne : absPre a ++ joinSegs (s0 :: S').reverse ≠ [] := by
      intro hcon
      exact hJne (List.append_eq_nil.mp hcon).2
    rw [if_neg (by simp : ¬(s0 :: S' = [])), joinSegs_append_singleton,
      if_neg hrevne, ← List.append_assoc,
      dirnameL_concat _ n hAne hn1 hn2, if_neg]
    intro hcon
    cases a with
    | true =>
      have hlen : (absPre true ++ joinSegs (s0 :: S').reverse).reverse.length =
          1 + (joinSegs (s0 :: S').reverse).length := by
        simp [absPre]
        omega
      have hJlen : (joinSegs (s0 :: S').reverse).length ≥ 1 :=
        List.length_pos.mpr hJne
      have := hcon.2
      omega
    | false =>
      have habs : isAbsL ((absPre false ++ joinSegs (s0 :: S').reverse) ++ '/' :: n) = false := by
        show isAbsL (([] : List Char) ++ joinSegs (s0 :: S').reverse ++ '/' :: n) = false
        rw [List.nil_append, isAbsL_append _ _ hJne]
        exact isAbsL_joinSegs_good _ hrevne hgoodrev
      rw [habs] at hcon
      exact absurd hcon.1 (by simp)

theorem reparse_form (a : Bool) (S : List (List Char)) (hS : GoodStack (!a) S) :
    isAbsL (if S = [] then (if a then ['/'] else dotSeg)
        else absPre a ++ joinSegs S.reverse) = a ∧
    normStack (!a) []
        (splitSlash (if S = [] then (if a then ['/'] else dotSeg)
          else absPre a ++ joinSegs S.reverse)) = S := by
  cases S with
  | nil =>
    cases a with
    | true => exact ⟨by decide, by decide⟩
    | false => exact ⟨by decide, by decide⟩
  | cons s0 S' =>
    have hgood : ∀ s ∈ s0 :: S', GoodSeg s := hS.1
    have hrevne : (s0 :: S').reverse ≠ [] := by simp
    have hgoodrev : ∀ s ∈ (s0 :: S').reverse, GoodSeg s :=
      fun s hs => hgood s (List.mem_reverse.mp hs)
    have hJne : joinSegs (s0 :: S').reverse ≠ [] :=
      joinSegs_ne_nil _ hrevne (fun s hs => (hgoodrev s hs).1)
    have hsplitJ : splitSlash (joinSegs (s0 :: S').reverse) = (s0 :: S').reverse :=
      splitSlash_joinSegs _ hrevne (fun s hs => (hgoodrev s hs).2.1)
    cases a with
    | true =>
      constructor
      · show ('/' == '/') = true
        decide
      · show normStack (!true) [] (splitSlash ('/' :: joinSegs (s0 :: S').reverse)) = _
        rw [splitSlash_cons_slash, hsplitJ]
        show normStack (!true) (stepSeg (!true) [] []) ((s0 :: S').reverse) = _
        rw [stepSeg_empty]
        exact normStack_refold _ _ hS
    | false =>
      constructor
      · show isAbsL (([] : List Char) ++ joinSegs (s0 :: S').reverse) = false
        rw [List.nil_append]
        exact isAbsL_joinSegs_good _ hrevne hgoodrev
      · show normStack (!false) [] (splitSlash (([] : List Char) ++ joinSegs (s0 :: S').reverse)) = _
        rw [List.nil_append, hsplitJ]
        exact normStack_refold _ _ hS

/-- `jsonPathForPdf` at the character-list level. -/
def jsonPathForPdfL (cs : List Char) : List Char :=
  join2L (dirnameL cs) (stripLastExtL (basenameL cs) ++ extJson)

theorem jsonPathForPdf_eq_mk (p : String) :
    jsonPathForPdf p = ⟨jsonPathForPdfL p.data⟩ := rfl

theorem goodName_nm (cs : List Char) :
    GoodName (stripLastExtL (basenameL cs) ++ extJson) := by
  refine ⟨by simp [extJson], ?_, ?_, ?_⟩
  · intro hm
    rcases List.mem_append.mp hm with hm | hm
    · exact basenameL_no_slash cs (stripLastExtL_subset _ _ hm)
    · simp [extJson] at hm
  · intro he
    have hl := congrArg List.length he
    simp [extJson, dotSeg] at hl
  · intro he
    have hl := congrArg List.length he
    simp [extJson, ddSeg] at hl

theorem jsonPathForPdfL_form (cs : List Char) :
    jsonPathForPdfL cs =
      absPre (isAbsL (dirnameL cs)) ++
        joinSegs
          ((normStack (!isAbsL (dirnameL cs)) [] (splitSlash (dirnameL cs))).reverse
            ++ [stripLastExtL (basenameL cs) ++ extJson]) := by
  show join2L (dirnameL cs) _ = _
  rw [join2L_form _ _ (dirnameL_ne_nil cs) (goodName_nm cs), List.reverse_cons]

theorem goodStack_jsonPath (cs : List Char) :
    GoodStack (!isAbsL (dirnameL cs))
      (normStack (!isAbsL (dirnameL cs)) [] (splitSlash (dirnameL cs))) :=
  normStack_good _ _ (mem_splitSlash_no_slash _) [] (goodStack_nil _)

theorem basenameL_jsonPath (cs : List Char) :
    basenameL (jsonPathForPdfL cs) = stripLastExtL (basenameL cs) ++ extJson := by
  rw [jsonPathForPdfL_form]
  exact basenameL_form _ _ _ (goodName_nm cs)

theorem dirnameL_jsonPath (cs : List Char) :
    dirnameL (jsonPathForPdfL cs) =
      if normStack (!isAbsL (dirnameL cs)) [] (splitSlash (dirnameL cs)) = [] then
        (if isAbsL (dirnameL cs) then ['/'] else dotSeg)
      else
        absPre (isAbsL (dirnameL cs)) ++
          joinSegs (normStack (!isAbsL (dirnameL cs)) [] (splitSlash (dirnameL cs))).reverse := by
  rw [jsonPathForPdfL_form]
  exact dirnameL_form _ _ _ (goodName_nm cs) (goodStack_jsonPath cs).1

theorem reparse_jsonPath (cs : List Char) :
    isAbsL (dirnameL (jsonPathForPdfL cs)) = isAbsL (dirnameL cs) ∧
    normStack (!isAbsL (dirnameL cs)) [] (splitSlash (dirnameL (jsonPathForPdfL cs))) =
      normStack (!isAbsL (dirnameL cs)) [] (splitSlash (dirnameL cs)) := by
  rw [dirnameL_jsonPath]
  exact reparse_form _ _ (goodStack_jsonPath cs)

theorem jsonPathForPdfL_idem (cs : List Char) :
    jsonPathForPdfL (jsonPathForPdfL cs) = jsonPathForPdfL cs := by
  have hb := basenameL_jsonPath cs
  have hrp := reparse_jsonPath cs
  show join2L (dirnameL (jsonPathForPdfL cs))
      (stripLastExtL (basenameL (jsonPathForPdfL cs)) ++ extJson) = _
  rw [hb, stripLastExtL_append_ext,
    join2L_form _ _ (dirnameL_ne_nil _) (goodName_nm cs),
    hrp.1, hrp.2, List.reverse_cons, ← jsonPathForPdfL_form]

/-- The normalized denotation of the directory containing a path: whether
the directory is absolute, together with its normalized segment stack.
Two paths with the same `dirClass` lie in the same directory. -/
def dirClass (p : String) : Bool × List (List Char) :=
  (isAbsL (dirnameL p.data),
    normStack (!isAbsL (dirnameL p.data)) [] (splitSlash (dirnameL p.data)))

/-- C9: `jsonPathForPdf` is a pure, total, deterministic Lean function (it
is defined for every input string with no error case), and it is
idempotent: mapping a path twice yields the same companion path as
mapping it once. -/
theorem jsonPathForPdf_idempotent (p : String) :
    jsonPathForPdf (jsonPathForPdf p) = jsonPathForPdf p := by
  rw [jsonPathForPdf_eq_mk p, jsonPathForPdf_eq_mk]
  exact congrArg String.mk (jsonPathForPdfL_idem p.data)

/-- C10: when the base name of the input contains no dot, `jsonPathForPdf`
strips nothing and the companion base name is the input base name with
`".json"` appended; in every case the companion path ends in `".json"`
and designates a file in the same directory as the input path (same
`dirClass`, i.e. the same directory after path normalization, which
`join` performs). -/
theorem jsonPathForPdf_shape (p : String) :
    ('.' ∉ (basename p).data →
        basename (jsonPathForPdf p) = basename p ++ ".json") ∧
    extJson <:+ (jsonPathForPdf p).data ∧
    dirClass (jsonPathForPdf p) = dirClass p := by
  refine ⟨?_, ?_, ?_⟩
  · intro hnd
    have hbn : basename (jsonPathForPdf p) =
        ⟨basenameL (jsonPathForPdfL p.data)⟩ := rfl
    rw [hbn, basenameL_jsonPath, stripLastExtL_no_dot (basenameL p.data) hnd]
    rfl
  · show extJson <:+ jsonPathForPdfL p.data
    rw [jsonPathForPdfL_form, joinSegs_append_singleton]
    have h1 : extJson <:+ stripLastExtL (basenameL p.data) ++ extJson :=
      List.suffix_append _ _
    split
    · exact h1.trans (List.suffix_append _ _)
    · have h2 := h1.trans
        (List.suffix_cons '/' (stripLastExtL (basenameL p.data) ++ extJson))
      exact (h2.trans (List.suffix_append _ _)).trans (List.suffix_append _ _)
  · have hrp := reparse_jsonPath p.data
    show (isAbsL (dirnameL (jsonPathForPdfL p.data)),
        normStack (!isAbsL (dirnameL (jsonPathForPdfL p.data))) []
          (splitSlash (dirnameL (jsonPathForPdfL p.data)))) = _
    rw [hrp.1, hrp.2]
    rfl

theorem jsonPathForPdf_shape_witness :
    ('.' ∉ (basename "/docs/README").data) ∧
    basename (jsonPathForPdf "/docs/README") = basename "/docs/README" ++ ".json" ∧
    extJson <:+ (jsonPathForPdf "/docs/README").data ∧
    dirClass (jsonPathForPdf "/docs/README") = dirClass "/docs/README" :=
  ⟨by decide, (jsonPathForPdf_shape "/docs/README").1 (by decide),
    (jsonPathForPdf_shape "/docs/README").2.1,
    (jsonPathForPdf_shape "/docs/README").2.2⟩

/-! ## Discovery model: `findPdfPathsRecursive` -/

mutual
/-- A directory-tree entry as `readdir(dir, withFileTypes)` reports it: a
regular file, a directory (with a flag recording whether `readdir` on it
succeeds — the walk catches the failure and skips the directory), or an
entry of any other kind (symlink, socket, ...), which matches neither
`isDirectory` nor `isFile` and is ignored. -/
inductive Entry where
  | file (name : String)
  | dir (name : String) (readable : Bool) (children : EntryList)
  | other (name : String)

/-- The entries of one directory, in the order the filesystem enumeration
yields them. -/
inductive EntryList where
  | nil
  | cons (e : Entry) (es : EntryList)
end

/-- The test `/\.pdf$/i.test(e.name)` from `findPdfPathsRecursive`: the
name ends in `".pdf"` up to letter case. -/
def isPdfName (name : String) : Bool :=
  match name.data.reverse with
  | f :: d :: p :: dot :: _ =>
    (f == 'f' || f == 'F') && (d == 'd' || d == 'D') &&
      (p == 'p' || p == 'P') && (dot == '.')
  | _ => false

mutual
/-- The body of the `for` loop of `walk` in `findPdfPathsRecursive` for a
single entry of directory `d`: directories named `node_modules` or
`.git` are skipped, other directories are recursed into when readable
(an unreadable one only logs a warning and contributes nothing), and a
regular file is collected when its name passes the PDF test. Full paths
are built as `d ++ "/" ++ name`, which agrees with `resolve(dir, e.name)`
because the walk starts from the absolute normalized working directory
and entry names are plain names without separators. -/
def walkEntry (d : String) : Entry → List String
  | .file n => if isPdfName n then [d ++ "/" ++ n] else []
  | .other _ => []
  | .dir n r cs =>
    if n = "node_modules" ∨ n = ".git" then []
    else if r then walkList (d ++ "/" ++ n) cs
    else []

/-- `walk` applied to the entries of one directory. -/
def walkList (d : String) : EntryList → List String
  | .nil => []
  | .cons e es => walkEntry d e ++ walkList d es
end

/-- `findPdfPathsRecursive(root)`: `walk(root)` first calls `readdir` on
the root itself inside the same `try`, so an unreadable root produces an
empty result (with a warning) rather than an exception. -/
def findPdfPathsRecursive (root : String) (rootReadable : Bool)
    (entries : EntryList) : List String :=
  if rootReadable then walkList root entries else []

mutual
/-- Specification-side reachability predicate: `FoundE d e p` holds iff
`p` is the path of a regular file whose name passes the PDF test, lying
under entry `e` of directory `d`, reachable without crossing a directory
named `node_modules` or `.git` and only through readable directories. -/
inductive FoundE : String → Entry → String → Prop where
  | file {d n : String} :
      isPdfName n = true → FoundE d (.file n) (d ++ "/" ++ n)
  | dir {d n : String} {cs : EntryList} {p : String} :
      n ≠ "node_modules" → n ≠ ".git" →
      FoundL (d ++ "/" ++ n) cs p → FoundE d (.dir n true cs) p

/-- `FoundL d es p`: `p` is reachable under one of the entries `es` of
directory `d`. -/
inductive FoundL : String → EntryList → String → Prop where
  | head {d : String} {e : Entry} {es : EntryList} {p : String} :
      FoundE d e p → FoundL d (.cons e es) p
  | tail {d : String} {e : Entry} {es : EntryList} {p : String} :
      FoundL d es p → FoundL d (.cons e es) p
end

mutual
theorem mem_walkEntry : ∀ (d : String) (e : Entry) (p : String),
    p ∈ walkEntry d e ↔ FoundE d e p
  | d, .file n, p => by
    constructor
    · intro hp
      unfold walkEntry at hp
      split at hp
      · next hpdf =>
        rw [List.mem_singleton.mp hp]
        exact FoundE.file hpdf
      · exact absurd hp (List.not_mem_nil p)
    · intro hf
      cases hf with
      | file hpdf =>
        unfold walkEntry
        rw [if_pos hpdf]
        exact List.mem_singleton.mpr rfl
  | d, .other n, p => by
    constructor
    · intro hp
      exact absurd hp (List.not_mem_nil p)
    · intro hf
      cases hf
  | d, .dir n r cs, p => by
    constructor
    · intro hp
      unfold walkEntry at hp
      split at hp
      · exact absurd hp (List.not_mem_nil p)
      · next hexc =>
        split at hp
        · next hr =>
          cases r with
          | true =>
            exact FoundE.dir (fun h => hexc (Or.inl h)) (fun h => hexc (Or.inr h))
              ((mem_walkList _ cs p).mp hp)
          | false => exact absurd hr (by simp)
        · exact absurd hp (List.not_mem_nil p)
    · intro hf
      cases hf with
      | dir hn1 hn2 hfl =>
        unfold walkEntry
        rw [if_neg (by simp [hn1, hn2]), if_pos rfl]
        exact (mem_walkList _ cs p).mpr hfl

theorem mem_walkList : ∀ (d : String) (es : EntryList) (p : String),
    p ∈ walkList d es ↔ FoundL d es p
  | d, .nil, p => by
    constructor
    · intro hp
      exact absurd hp (List.not_mem_nil p)
    · intro hf
      cases hf
  | d, .cons e es, p => by
    constructor
    · intro hp
      rcases List.mem_append.mp hp with hp | hp
      · exact FoundL.head ((mem_walkEntry d e p).mp hp)
      · exact FoundL.tail ((mem_walkList d es p).mp hp)
    · intro hf
      cases hf with
      | head hfe =>
        exact List.mem_append.mpr (Or.inl ((mem_walkEntry d e p).mpr hfe))
      | tail hfl =>
        exact List.mem_append.mpr (Or.inr ((mem_walkList d es p).mpr hfl))
end

/-- C3: the discovered set is exactly characterized by `FoundL`: a path is
returned iff the root was readable and the path names a regular file with
a `.pdf` name (case-insensitively), reached only through readable
directories none of which is named `node_modules` or `.git`, at any
depth. In particular only such regular files appear, and nothing beneath
an excluded directory ever does. -/
theorem findPdfPathsRecursive_characterization (root : String)
    (rootReadable : Bool) (es : EntryList) (p : String) :
    p ∈ findPdfPathsRecursive root rootReadable es ↔
      (rootReadable = true ∧ FoundL root es p) := by
  cases rootReadable with
  | true =>
    unfold findPdfPathsRecursive
    rw [if_pos rfl]
    constructor
    · intro hp
      exact ⟨rfl, (mem_walkList root es p).mp hp⟩
    · intro h
      exact (mem_walkList root es p).mpr h.2
  | false =>
    unfold findPdfPathsRecursive
    rw [if_neg (by simp)]
    constructor
    · intro hp
      exact absurd hp (List.not_mem_nil p)
    · intro h
      exact absurd h.1 (by simp)

example :
    findPdfPathsRecursive "/r" true
      (.cons (.dir "node_modules" true (.cons (.file "x.pdf") .nil))
        (.cons (.dir "docs" true (.cons (.file "a.PDF")
          (.cons (.other "b.pdf") (.cons (.file "notes.txt") .nil))))
          (.cons (.dir "locked" false (.cons (.file "y.pdf") .nil))
            (.cons (.file "top.pdf") .nil)))) =
      ["/r/docs/a.PDF", "/r/top.pdf"] := by decide

example : findPdfPathsRecursive "/r" false
    (.cons (.file "a.pdf") .nil) = [] := by decide

/-! ## Filesystem and orchestration model -/

/-- The filesystem contents relevant to a run: an association list from
path to file content; the first binding for a path is its content. -/
abbrev FS := List (String × String)

/-- Content of a path, if the file exists. -/
def lookupFS : FS → String → Option String
  | [], _ => none
  | (q, c) :: rest, p => if q = p then some c else lookupFS rest p

/-- `Bun.write(outPath, stdoutText)`: create or overwrite the file. -/
def writeFS (fs : FS) (p c : String) : FS := (p, c) :: fs

/-- `await unlink(outPath)` wrapped in `try { ... } catch {}`: the file is
removed when present; the error thrown for a missing file is swallowed by
the empty catch. -/
def unlinkFS : FS → String → FS
  | [], _ => []
  | (q, c) :: rest, p =>
    if q = p then unlinkFS rest p else (q, c) :: unlinkFS rest p

/-- `fileExists` from `run.ts`: `access(p)` succeeds for present paths and
throws otherwise, so the function returns presence of the path. -/
def fileExists (fs : FS) (p : String) : Bool := (lookupFS fs p).isSome

/-- The timestamped log and error lines of `run.ts`, abstracted to events
(one constructor per distinct message relevant to the claims). -/
inductive LogEvent where
  | warnNotJson (path : String)
  | wroteJson (outPath : String)
  | errPolkaFailed (path : String)
  | errNoStdio (path : String)
  | skipExisting (outPath : String)
  | warnContinuing (path : String)
  | errUnhandled (path : String)
  | warnNoPdfs
  | doneMarker
deriving DecidableEq

/-- The behaviour of one external-process round trip, supplied as an
environment for the model: the process runs to completion with a captured
stdout text and an exit code; or `Bun.spawn` yields a process without
usable stdio channels (the guarded early `return 1`); or an exception
escapes `runPolkaWithPath` (spawn failure, I/O error) before any
filesystem effect. -/
inductive PolkaBehavior where
  | runs (stdoutText : String) (exitCode : Nat)
  | noStdio
  | throwsEx
deriving DecidableEq

/-- `runPolkaWithPath` from `run.ts`: compute the companion path, run the
external process, log whether the captured stdout parses as JSON (the
`JSON.parse` try is abstracted by the predicate `jsonOk`) without acting
on it, then decide on the exit code alone: non-zero deletes the companion
(ignoring deletion errors) and zero writes the captured text to it.
`none` models the exception case. -/
def runPolkaWithPath (jsonOk : String → Bool) (fs : FS) (fullPath : String)
    (b : PolkaBehavior) : Option (FS × Nat × List LogEvent) :=
  let outPath := jsonPathForPdf fullPath
  match b with
  | .throwsEx => none
  | .noStdio => some (fs, 1, [.errNoStdio fullPath])
  | .runs text code =>
    let jlog : List LogEvent :=
      if jsonOk text then [] else [.warnNotJson fullPath]
    if code ≠ 0 then
      some (unlinkFS fs outPath, code, jlog ++ [.errPolkaFailed fullPath])
    else
      some (writeFS fs outPath text, code, jlog ++ [.wroteJson outPath])

/-- The spec's JobOutcome for one candidate. -/
inductive Outcome where
  | skipped
  | succeeded
  | failed
  | errored
deriving DecidableEq

/-- Result of one iteration of the top-level loop: the filesystem after
the iteration, the outcome, whether `runPolkaWithPath` was invoked, and
the log. -/
structure StepResult where
  fs : FS
  outcome : Outcome
  invoked : Bool
  log : List LogEvent
deriving DecidableEq

/-- One iteration of the top-level `for` loop of `run.ts`: skip when the
companion already exists; otherwise invoke `runPolkaWithPath` inside
`try`, warning and continuing on non-zero exit and catching any
exception as an unhandled error for this candidate. -/
def processOne (jsonOk : String → Bool) (fs : FS) (p : String)
    (b : PolkaBehavior) : StepResult :=
  let outPath := jsonPathForPdf p
  if fileExists fs outPath then
    ⟨fs, .skipped, false, [.skipExisting outPath]⟩
  else
    match runPolkaWithPath jsonOk fs p b with
    | none => ⟨fs, .errored, true, [.errUnhandled p]⟩
    | some (fs', code, log) =>
      if code ≠ 0 then ⟨fs', .failed, true, log ++ [.warnContinuing p]⟩
      else ⟨fs', .succeeded, true, log⟩

/-- Aggregate result of the top-level loop. -/
structure BatchResult where
  fs : FS
  outcomes : List Outcome
  invocations : Nat
  log : List LogEvent
deriving DecidableEq

/-- The whole top-level `for` loop over the discovered candidates, in
discovery order, each iteration starting from the filesystem the previous
one left. -/
def processAll (jsonOk : String → Bool) (fs : FS) :
    List String → (String → PolkaBehavior) → BatchResult
  | [], _ => ⟨fs, [], 0, []⟩
  | p :: rest, env =>
    let r := processOne jsonOk fs p (env p)
    let rr := processAll jsonOk r.fs rest env
    ⟨rr.fs, r.outcome :: rr.outcomes,
      (if r.invoked then 1 else 0) + rr.invocations, r.log ++ rr.log⟩

/-- Result of a whole run, including the process exit status. -/
structure RunResult where
  fs : FS
  outcomes : List Outcome
  invocations : Nat
  exitCode : Nat
  log : List LogEvent
deriving DecidableEq

/-- The module top level of `run.ts`: discover candidates once; with zero
candidates warn and `process.exit(0)` immediately; otherwise run the loop
over all candidates and end normally (implicit exit status 0), logging
the completion marker. -/
def mainRun (jsonOk : String → Bool) (root : String) (rootReadable : Bool)
    (entries : EntryList) (fs : FS) (env : String → PolkaBehavior) :
    RunResult :=
  let pdfs := findPdfPathsRecursive root rootReadable entries
  if pdfs.isEmpty then ⟨fs, [], 0, 0, [.warnNoPdfs]⟩
  else
    let b := processAll jsonOk fs pdfs env
    ⟨b.fs, b.outcomes, b.invocations, 0, b.log ++ [.doneMarker]⟩

/-! ## Lemmas about the filesystem and job model -/

theorem lookupFS_writeFS_self (fs : FS) (p c : String) :
    lookupFS (writeFS fs p c) p = some c := by
  show (if p = p then some c else lookupFS fs p) = some c
  rw [if_pos rfl]

theorem lookupFS_unlinkFS_self (fs : FS) (p : String) :
    lookupFS (unlinkFS fs p) p = none := by
  induction fs with
  | nil => rfl
  | cons qc rest ih =>
    obtain ⟨q, c⟩ := qc
    show lookupFS (if q = p then unlinkFS rest p
      else (q, c) :: unlinkFS rest p) p = none
    split
    · exact ih
    · next hq =>
      show (if q = p then some c else lookupFS (unlinkFS rest p) p) = none
      rw [if_neg hq]
      exact ih

theorem processOne_skip (jsonOk : String → Bool) (fs : FS) (p : String)
    (b : PolkaBehavior) (hgate : fileExists fs (jsonPathForPdf p) = true) :
    processOne jsonOk fs p b =
      ⟨fs, .skipped, false, [.skipExisting (jsonPathForPdf p)]⟩ := by
  simp only [processOne]
  rw [hgate]
  simp

theorem processOne_runs_zero (jsonOk : String → Bool) (fs : FS)
    (p text : String) (hgate : fileExists fs (jsonPathForPdf p) = false) :
    processOne jsonOk fs p (.runs text 0) =
      ⟨writeFS fs (jsonPathForPdf p) text, .succeeded, true,
        (if jsonOk text then [] else [.warnNotJson p]) ++
          [.wroteJson (jsonPathForPdf p)]⟩ := by
  simp only [processOne, runPolkaWithPath]
  rw [hgate]
  simp

theorem processOne_runs_nonzero (jsonOk : String → Bool) (fs : FS)
    (p text : String) (code : Nat) (hcode : code ≠ 0)
    (hgate : fileExists fs (jsonPathForPdf p) = false) :
    processOne jsonOk fs p (.runs text code) =
      ⟨unlinkFS fs (jsonPathForPdf p), .failed, true,
        ((if jsonOk text then [] else [.warnNotJson p]) ++
          [.errPolkaFailed p]) ++ [.warnContinuing p]⟩ := by
  simp only [processOne, runPolkaWithPath]
  rw [hgate]
  simp [hcode]

theorem processOne_throws (jsonOk : String → Bool) (fs : FS) (p : String)
    (hgate : fileExists fs (jsonPathForPdf p) = false) :
    processOne jsonOk fs p .throwsEx =
      ⟨fs, .errored, true, [.errUnhandled p]⟩ := by
  simp only [processOne, runPolkaWithPath]
  rw [hgate]
  simp

theorem processAll_cons (jsonOk : String → Bool) (fs : FS) (p : String)
    (rest : List String) (env : String → PolkaBehavior) :
    processAll jsonOk fs (p :: rest) env =
      ⟨(processAll jsonOk (processOne jsonOk fs p (env p)).fs rest env).fs,
        (processOne jsonOk fs p (env p)).outcome ::
          (processAll jsonOk (processOne jsonOk fs p (env p)).fs rest env).outcomes,
        (if (processOne jsonOk fs p (env p)).invoked then 1 else 0) +
          (processAll jsonOk (processOne jsonOk fs p (env p)).fs rest env).invocations,
        (processOne jsonOk fs p (env p)).log ++
          (processAll jsonOk (processOne jsonOk fs p (env p)).fs rest env).log⟩ :=
  rfl

theorem processAll_append (jsonOk : String → Bool) (fs : FS)
    (l1 l2 : List String) (env : String → PolkaBehavior) :
    processAll jsonOk fs (l1 ++ l2) env =
      ⟨(processAll jsonOk (processAll jsonOk fs l1 env).fs l2 env).fs,
        (processAll jsonOk fs l1 env).outcomes ++
          (processAll jsonOk (processAll jsonOk fs l1 env).fs l2 env).outcomes,
        (processAll jsonOk fs l1 env).invocations +
          (processAll jsonOk (processAll jsonOk fs l1 env).fs l2 env).invocations,
        (processAll jsonOk fs l1 env).log ++
          (processAll jsonOk (processAll jsonOk fs l1 env).fs l2 env).log⟩ := by
  induction l1 generalizing fs with
  | nil => simp [processAll]
  | cons p rest ih =>
    rw [List.cons_append, processAll_cons, processAll_cons, ih]
    simp [Nat.add_assoc]

/-! ## Claim theorems about the job runner and orchestrator -/

/-- C1: when the external extraction process exits with status zero for a
candidate whose companion did not exist at the gate, the job writes the
captured stdout text to the CompanionPath so that afterwards the file
exists with exactly that content, and the job is recorded as Succeeded. -/
theorem success_writes_companion (jsonOk : String → Bool) (fs : FS)
    (p text : String) (hgate : fileExists fs (jsonPathForPdf p) = false) :
    lookupFS (processOne jsonOk fs p (.runs text 0)).fs (jsonPathForPdf p) =
      some text ∧
    (processOne jsonOk fs p (.runs text 0)).outcome = .succeeded := by
  rw [processOne_runs_zero jsonOk fs p text hgate]
  exact ⟨lookupFS_writeFS_self fs (jsonPathForPdf p) text, rfl⟩

theorem success_writes_companion_witness :
    fileExists [] (jsonPathForPdf "/a/b.pdf") = false ∧
    (lookupFS (processOne (fun _ => true) [] "/a/b.pdf"
          (.runs "OUT" 0)).fs (jsonPathForPdf "/a/b.pdf") = some "OUT" ∧
      (processOne (fun _ => true) [] "/a/b.pdf"
          (.runs "OUT" 0)).outcome = .succeeded) :=
  ⟨rfl, success_writes_companion (fun _ => true) [] "/a/b.pdf" "OUT" rfl⟩

/-- C2: when the external extraction process exits with a non-zero status,
`runPolkaWithPath` deletes the CompanionPath (covering a pre-existing or
partially written file), so no file exists at the CompanionPath after the
job completes, and no exception escapes. -/
theorem nonzero_exit_removes_companion (jsonOk : String → Bool) (fs : FS)
    (p text : String) (code : Nat) (hcode : code ≠ 0) :
    runPolkaWithPath jsonOk fs p (.runs text code) =
      some (unlinkFS fs (jsonPathForPdf p), code,
        (if jsonOk text then [] else [.warnNotJson p]) ++
          [.errPolkaFailed p]) ∧
    lookupFS (unlinkFS fs (jsonPathForPdf p)) (jsonPathForPdf p) = none := by
  constructor
  · simp only [runPolkaWithPath]
    rw [if_pos hcode]
  · exact lookupFS_unlinkFS_self fs (jsonPathForPdf p)

theorem nonzero_exit_removes_companion_witness :
    (1 : Nat) ≠ 0 ∧
    lookupFS (unlinkFS [(jsonPathForPdf "/a/b.pdf", "partial")]
        (jsonPathForPdf "/a/b.pdf")) (jsonPathForPdf "/a/b.pdf") = none :=
  ⟨by decide,
    (nonzero_exit_removes_companion (fun _ => true)
      [(jsonPathForPdf "/a/b.pdf", "partial")] "/a/b.pdf" "OUT" 1
      (by decide)).2⟩

/-- C4: when the CompanionPath already exists at the gate, the runner is
never invoked for that candidate (`invoked = false`, so the invocation
counter does not advance), the outcome is Skipped, the filesystem is
untouched, and the loop advances to the remaining candidates exactly as
if this candidate were absent. -/
theorem existing_companion_skips (jsonOk : String → Bool) (fs : FS)
    (p : String) (rest : List String) (env : String → PolkaBehavior)
    (hgate : fileExists fs (jsonPathForPdf p) = true) :
    (processOne jsonOk fs p (env p)).invoked = false ∧
    (processOne jsonOk fs p (env p)).outcome = .skipped ∧
    (processOne jsonOk fs p (env p)).fs = fs ∧
    processAll jsonOk fs (p :: rest) env =
      ⟨(processAll jsonOk fs rest env).fs,
        .skipped :: (processAll jsonOk fs rest env).outcomes,
        (processAll jsonOk fs rest env).invocations,
        .skipExisting (jsonPathForPdf p) ::
          (processAll jsonOk fs rest env).log⟩ := by
  rw [processAll_cons, processOne_skip jsonOk fs p (env p) hgate]
  refine ⟨rfl, rfl, rfl, ?_⟩
  simp

theorem existing_companion_skips_witness :
    fileExists [(jsonPathForPdf "/a/b.pdf", "old")]
      (jsonPathForPdf "/a/b.pdf") = true ∧
    (processOne (fun _ => true) [(jsonPathForPdf "/a/b.pdf", "old")]
        "/a/b.pdf" ((fun _ => PolkaBehavior.runs "x" 0) "/a/b.pdf")).invoked =
      false :=
  ⟨by decide,
    (existing_companion_skips (fun _ => true)
      [(jsonPathForPdf "/a/b.pdf", "old")] "/a/b.pdf" []
      (fun _ => PolkaBehavior.runs "x" 0) (by decide)).1⟩

/-- C5: an exception thrown while processing one candidate (its companion
absent at the gate, so the adapter call actually happens) is caught and
recorded as Errored for that candidate alone, leaves the filesystem
unchanged, and every other candidate before and after it is processed
exactly as it would have been: the outcome list splits around a single
Errored entry. -/
theorem throw_isolated_to_candidate (jsonOk : String → Bool) (fs : FS)
    (pre : List String) (p : String) (post : List String)
    (env : String → PolkaBehavior) (henv : env p = .throwsEx)
    (hgate : fileExists (processAll jsonOk fs pre env).fs
      (jsonPathForPdf p) = false) :
    (processAll jsonOk fs (pre ++ p :: post) env).outcomes =
      (processAll jsonOk fs pre env).outcomes ++
        .errored ::
          (processAll jsonOk (processAll jsonOk fs pre env).fs post
            env).outcomes ∧
    (processAll jsonOk fs (pre ++ p :: post) env).fs =
      (processAll jsonOk (processAll jsonOk fs pre env).fs post env).fs := by
  rw [processAll_append, processAll_cons, henv,
    processOne_throws jsonOk _ p hgate]
  exact ⟨rfl, rfl⟩

theorem throw_isolated_to_candidate_witness :
    (processAll (fun _ => true) []
        (["/a.pdf"] ++ "/b.pdf" :: ["/c.pdf"])
        (fun q => if q = "/b.pdf" then PolkaBehavior.throwsEx
          else if q = "/c.pdf" then .runs "OUT" 3
          else .runs "OUT" 0)).outcomes =
      [.succeeded, .errored, .failed] := by
  rw [(throw_isolated_to_candidate (fun _ => true) [] ["/a.pdf"] "/b.pdf"
    ["/c.pdf"]
    (fun q => if q = "/b.pdf" then PolkaBehavior.throwsEx
      else if q = "/c.pdf" then .runs "OUT" 3
      else .runs "OUT" 0)
    (by decide) (by decide)).1]
  decide

/-- C6: the overall run always finishes with exit status zero, whatever
the individual job outcomes are; and when discovery yields zero
candidates the run terminates immediately with success, no job
invocations, the filesystem untouched, and only the no-PDFs warning. -/
theorem run_always_exits_zero (jsonOk : String → Bool) (root : String)
    (rootReadable : Bool) (entries : EntryList) (fs : FS)
    (env : String → PolkaBehavior) :
    (mainRun jsonOk root rootReadable entries fs env).exitCode = 0 ∧
    (findPdfPathsRecursive root rootReadable entries = [] →
      mainRun jsonOk root rootReadable entries fs env =
        ⟨fs, [], 0, 0, [.warnNoPdfs]⟩) := by
  constructor
  · simp only [mainRun]
    split
    · rfl
    · rfl
  · intro hempty
    simp only [mainRun]
    rw [hempty]
    rfl

theorem run_always_exits_zero_witness :
    (mainRun (fun _ => true) "/r" true EntryList.nil []
        (fun _ => PolkaBehavior.throwsEx)).exitCode = 0 ∧
    findPdfPathsRecursive "/r" true EntryList.nil = [] ∧
    mainRun (fun _ => true) "/r" true EntryList.nil []
        (fun _ => PolkaBehavior.throwsEx) = ⟨[], [], 0, 0, [.warnNoPdfs]⟩ :=
  ⟨(run_always_exits_zero (fun _ => true) "/r" true EntryList.nil []
      (fun _ => PolkaBehavior.throwsEx)).1,
    by decide,
    (run_always_exits_zero (fun _ => true) "/r" true EntryList.nil []
      (fun _ => PolkaBehavior.throwsEx)).2 (by decide)⟩

/-- C7 counterexample: the claim says that an inaccessible root path
aborts the run. In `run.ts` the `readdir` on the root sits inside the
same `try` as every other directory read, so the failure is caught: here
a concrete run whose root is unreadable completes normally with exit
status 0, zero invocations and only the no-PDFs warning — it does not
abort. -/
theorem unreadable_root_completes :
    mainRun (fun _ => true) "/r" false
        (EntryList.cons (Entry.file "a.pdf") EntryList.nil) []
        (fun _ => PolkaBehavior.throwsEx) =
      ⟨[], [], 0, 0, [.warnNoPdfs]⟩ := by
  decide

/-- C7 amended: a fault reading the root directory is caught inside the
discovery walk like any unreadable directory, so the run does not abort:
discovery yields no candidates and the run terminates immediately with
exit status zero, zero invocations, the filesystem untouched, and the
no-PDFs warning logged. (That no other condition is fatal is
`run_always_exits_zero`: every modelled run exits with status zero.) -/
theorem unreadable_root_graceful (jsonOk : String → Bool) (root : String)
    (entries : EntryList) (fs : FS) (env : String → PolkaBehavior) :
    mainRun jsonOk root false entries fs env =
      ⟨fs, [], 0, 0, [.warnNoPdfs]⟩ := by
  unfold mainRun findPdfPathsRecursive
  simp

/-- Forget the log of a `runPolkaWithPath` result, keeping the filesystem
and exit code: the persistence-relevant part. -/
def persistedResult (r : Option (FS × Nat × List LogEvent)) :
    Option (FS × Nat) :=
  r.map (fun x => (x.1, x.2.1))

/-- C8: the JSON-parse check on the captured output never gates
persistence: the filesystem effect and returned exit code of
`runPolkaWithPath` are identical under any two parse predicates, and on
exit status zero the output is written to the CompanionPath even when it
is not valid JSON — the failed parse only adds a logged warning. -/
theorem json_parse_never_gates (fs : FS) (p text : String) (code : Nat)
    (j1 j2 : String → Bool) (hj : j1 text = false) :
    persistedResult (runPolkaWithPath j1 fs p (.runs text code)) =
      persistedResult (runPolkaWithPath j2 fs p (.runs text code)) ∧
    runPolkaWithPath j1 fs p (.runs text 0) =
      some (writeFS fs (jsonPathForPdf p) text, 0,
        [.warnNotJson p, .wroteJson (jsonPathForPdf p)]) := by
  constructor
  · simp only [runPolkaWithPath]
    split
    · simp [persistedResult]
    · simp [persistedResult]
  · simp only [runPolkaWithPath]
    rw [hj]
    simp

theorem json_parse_never_gates_witness :
    ((fun _ : String => false) "not json" = false) ∧
    persistedResult (runPolkaWithPath (fun _ => false) [] "/a/b.pdf"
        (.runs "not json" 0)) =
      persistedResult (runPolkaWithPath (fun _ => true) [] "/a/b.pdf"
        (.runs "not json" 0)) ∧
    runPolkaWithPath (fun _ => false) [] "/a/b.pdf" (.runs "not json" 0) =
      some (writeFS [] (jsonPathForPdf "/a/b.pdf") "not json", 0,
        [.warnNotJson "/a/b.pdf", .wroteJson (jsonPathForPdf "/a/b.pdf")]) :=
  ⟨rfl,
    (json_parse_never_gates [] "/a/b.pdf" "not json" 0
      (fun _ => false) (fun _ => true) rfl).1,
    (json_parse_never_gates [] "/a/b.pdf" "not json" 0
      (fun _ => false) (fun _ => true) rfl).2⟩
